import Mathlib

/-!
The pattern parser of `sre` (src/parse.hpp)

A shallow embedding of the type-level recursive-descent parser
`sre::ParsingInternal::StateEmpty` / `State` / `Parser::get`, and the
properties of it that the specification states.

Pattern characters are the `unsigned int` values carried by `CharUInt<c>`;
they are natural numbers here.  The six characters the parser treats
specially are

* `'^'` = 94, `'$'` = 36, `'('` = 40, `')'` = 41, `'+'` = 43, `'*'` = 42.

A template instantiation `StateEmpty<chars...>` has two member types,
`tuple_type` (the nodes parsed so far) and `unparsed_part` (the characters
left over); the embedding computes both as the two fields of `Parsed`.
-/

namespace sre
namespace ParsingInternal

/-! ## Data model -/

/-- Modelled from the spec: the node templates `Char<c>`, `Plus<T>`, `Star<T>`,
`Begin`, `End` and `RegExp<Args...>` are declared in
`static-regexp/static-regexp.hpp`, which is not part of the sources; the parser
only builds them.  The spec calls `Char` a `Literal` and `RegExp` a `Group`. -/
inductive Node where
  | Char (c : Nat)
  | Plus (sub : Node)
  | Star (sub : Node)
  | Begin
  | End
  | RegExp (subs : List Node)

/-- The two member types of a parsing state: the parsed nodes and the unparsed
characters. -/
structure Parsed where
  tuple_type : List Node
  unparsed_part : List Nat

/-- The function `Utils::forward_to_regex`: a tuple of nodes becomes
`RegExp<Args...>`. -/
def forward_to_regex (sequence : List Node) : Node := Node.RegExp sequence

/-! ## The two parsing states

`StateEmpty<chars...>` and `State<Prev, chars...>` are mutually recursive.  The
`'('` rule continues on the `unparsed_part` of the nested parse, so the
recursion is on the length of the input and every result carries the bound
`unparsed_part.length ≤ chars.length` that makes it well founded. -/

mutual
/-- The template `StateEmpty<chars...>` with its specialisations, most
specialised first: the empty pack, `'^'`, `'$'`, `')'`, `'('`, and the general
`StateEmpty<c, chars...>` that derives from `State<Char<c::value>, chars...>`. -/
def StateEmptyCore :
    (cs : List Nat) → {r : Parsed // r.unparsed_part.length ≤ cs.length}
  | [] => ⟨⟨[], []⟩, Nat.le_refl _⟩
  | c :: chars =>
    if c = 94 then
      let next := StateEmptyCore chars
      ⟨⟨Node.Begin :: next.1.tuple_type, next.1.unparsed_part⟩, Nat.le_succ_of_le next.2⟩
    else if c = 36 then
      let next := StateEmptyCore chars
      ⟨⟨Node.End :: next.1.tuple_type, next.1.unparsed_part⟩, Nat.le_succ_of_le next.2⟩
    else if c = 41 then
      ⟨⟨[], chars⟩, Nat.le_succ _⟩
    else if c = 40 then
      match StateEmptyCore chars with
      | ⟨sub, hsub⟩ =>
        let rest := StateCore (forward_to_regex sub.tuple_type) sub.unparsed_part
        ⟨rest.1, Nat.le_trans rest.2 (Nat.le_succ_of_le hsub)⟩
    else
      let r := StateCore (Node.Char c) chars
      ⟨r.1, Nat.le_succ_of_le r.2⟩
termination_by cs => 2 * cs.length
decreasing_by all_goals (simp only [List.length_cons, List.length_nil]; omega)

/-- The template `State<Prev, chars...>` with its specialisations for a leading
`'+'` and a leading `'*'`; the general case pushes `Prev` and parses the same
characters again with `StateEmpty`. -/
def StateCore (Prev : Node) :
    (cs : List Nat) → {r : Parsed // r.unparsed_part.length ≤ cs.length}
  | [] =>
    let next := StateEmptyCore []
    ⟨⟨Prev :: next.1.tuple_type, next.1.unparsed_part⟩, next.2⟩
  | c :: chars =>
    if c = 43 then
      let next := StateEmptyCore chars
      ⟨⟨Node.Plus Prev :: next.1.tuple_type, next.1.unparsed_part⟩, Nat.le_succ_of_le next.2⟩
    else if c = 42 then
      let next := StateEmptyCore chars
      ⟨⟨Node.Star Prev :: next.1.tuple_type, next.1.unparsed_part⟩, Nat.le_succ_of_le next.2⟩
    else
      let next := StateEmptyCore (c :: chars)
      ⟨⟨Prev :: next.1.tuple_type, next.1.unparsed_part⟩, next.2⟩
termination_by cs => 2 * cs.length + 1
decreasing_by all_goals (simp only [List.length_cons, List.length_nil]; omega)
end

/-- The member types of `StateEmpty<chars...>`. -/
def StateEmpty (chars : List Nat) : Parsed := (StateEmptyCore chars).1

/-- The member types of `State<Prev, chars...>`. -/
def State (Prev : Node) (chars : List Nat) : Parsed := (StateCore Prev chars).1

/-- The function `Parser<chars...>::get`: the `static_assert` requires
`unparsed_part` to be the empty tuple, and a failed assertion (no program is
built) is `none`; otherwise the result is `forward_to_regex` of the nodes. -/
def Parser.get (chars : List Nat) : Option Node :=
  let Impl := StateEmpty chars
  if Impl.unparsed_part = [] then some (forward_to_regex Impl.tuple_type) else none

/-! ## Vocabulary of the specification -/

/-- The nesting depth after reading a pattern from depth `d`: `'('` opens a
level, `')'` closes one, and a `')'` at depth `0` (one that closes no earlier
unclosed `'('`) gives `none`. -/
def depthScan : Nat → List Nat → Option Nat
  | d, [] => some d
  | d, c :: cs =>
    if c = 40 then depthScan (d + 1) cs
    else if c = 41 then (if d = 0 then none else depthScan (d - 1) cs)
    else depthScan d cs

/-- A pattern is balanced when every `')'` closes an earlier unclosed `'('` and
every `'('` is closed. -/
def balanced (s : List Nat) : Bool := depthScan 0 s == some 0

/-- The grammar of balanced patterns: empty, a character that is no parenthesis
followed by a balanced pattern, or a parenthesised balanced pattern followed by
a balanced pattern. -/
inductive Balanced : List Nat → Prop where
  | nil : Balanced []
  | char (c : Nat) (s : List Nat) : c ≠ 40 → c ≠ 41 → Balanced s → Balanced (c :: s)
  | group (s₁ s₂ : List Nat) : Balanced s₁ → Balanced s₂ → Balanced (40 :: s₁ ++ 41 :: s₂)

/-- The two postfix operator characters, `'+'` and `'*'`. -/
def isOp (o : Nat) : Bool := o == 43 || o == 42

/-- The repetition node an operator character builds: `Plus` for `'+'`, `Star`
for `'*'`. -/
def opNode (o : Nat) (sub : Node) : Node :=
  if o = 43 then Node.Plus sub else Node.Star sub

/-- Whether a character sequence begins with `'+'` or `'*'`. -/
def startsWithOp : List Nat → Bool
  | [] => false
  | c :: _ => isOp c

/-- An atom is a literal or a group. -/
def Node.isAtom : Node → Bool
  | .Char _ => true
  | .RegExp _ => true
  | _ => false

mutual
/-- The child of every `Plus` and `Star` inside the node, at every depth, is a
literal or a group. -/
def Node.repChildOk : Node → Bool
  | .Char _ => true
  | .Plus sub => sub.isAtom && sub.repChildOk
  | .Star sub => sub.isAtom && sub.repChildOk
  | .Begin => true
  | .End => true
  | .RegExp subs => repChildOkList subs
/-- The predicate `Node.repChildOk` on every node of a sequence. -/
def repChildOkList : List Node → Bool
  | [] => true
  | n :: ns => n.repChildOk && repChildOkList ns
end

/-- An atom-producing start of a pattern, with the atom it produces: a single
character other than `'^'`, `'$'`, `'('` and `')'` produces its literal, and a
balanced pattern in parentheses produces the group of that pattern's nodes. -/
inductive AtomStart : List Nat → Node → Prop where
  | char (c : Nat) : c ≠ 94 → c ≠ 36 → c ≠ 40 → c ≠ 41 → AtomStart [c] (Node.Char c)
  | group (s : List Nat) : balanced s = true →
      AtomStart (40 :: s ++ [41]) (Node.RegExp (StateEmpty s).tuple_type)

/-- The characters after the first unmatched `')'` of a pattern read from depth
`d` (the first `')'` met at depth `0`), or `none` when there is no such `')'`. -/
def afterUnmatchedClose : Nat → List Nat → Option (List Nat)
  | _, [] => none
  | d, c :: cs =>
    if c = 40 then afterUnmatchedClose (d + 1) cs
    else if c = 41 then (if d = 0 then some cs else afterUnmatchedClose (d - 1) cs)
    else afterUnmatchedClose d cs

/-- A plain character: none of `'^'`, `'$'`, `'('`, `')'`, `'+'`, `'*'`. -/
def isPlain (c : Nat) : Bool :=
  c != 94 && c != 36 && c != 40 && c != 41 && c != 43 && c != 42

mutual
/-- The text of a node: `Literal(c)` is `c`, `Plus(n)` is the text of `n` followed
by `'+'`, `Star(n)` is the text of `n` followed by `'*'`, `Begin` is `'^'`, `End`
is `'$'`, and `Group(ns)` is `'('`, the text of `ns`, `')'`. -/
def Node.render : Node → List Nat
  | .Char c => [c]
  | .Plus sub => sub.render ++ [43]
  | .Star sub => sub.render ++ [42]
  | .Begin => [94]
  | .End => [36]
  | .RegExp subs => 40 :: (renderList subs ++ [41])
/-- The text of a node sequence: the concatenation of the texts of its nodes. -/
def renderList : List Node → List Nat
  | [] => []
  | n :: ns => n.render ++ renderList ns
end

/-! ## Unfolding the two states -/

theorem StateEmpty_nil : StateEmpty [] = ⟨[], []⟩ := by
  simp [StateEmpty, StateEmptyCore]

theorem StateEmpty_cons (c : Nat) (chars : List Nat) :
    StateEmpty (c :: chars) =
      if c = 94 then
        ⟨Node.Begin :: (StateEmpty chars).tuple_type, (StateEmpty chars).unparsed_part⟩
      else if c = 36 then
        ⟨Node.End :: (StateEmpty chars).tuple_type, (StateEmpty chars).unparsed_part⟩
      else if c = 41 then ⟨[], chars⟩
      else if c = 40 then
        State (forward_to_regex (StateEmpty chars).tuple_type) (StateEmpty chars).unparsed_part
      else State (Node.Char c) chars := by
  simp only [StateEmpty, State]
  rw [StateEmptyCore]
  split_ifs <;> rfl

theorem State_nil (p : Node) : State p [] = ⟨[p], []⟩ := by
  simp [State, StateCore, StateEmptyCore]

theorem State_cons (p : Node) (c : Nat) (chars : List Nat) :
    State p (c :: chars) =
      if c = 43 then
        ⟨Node.Plus p :: (StateEmpty chars).tuple_type, (StateEmpty chars).unparsed_part⟩
      else if c = 42 then
        ⟨Node.Star p :: (StateEmpty chars).tuple_type, (StateEmpty chars).unparsed_part⟩
      else
        ⟨p :: (StateEmpty (c :: chars)).tuple_type, (StateEmpty (c :: chars)).unparsed_part⟩ := by
  simp only [StateEmpty, State]
  rw [StateCore]
  split_ifs <;> rfl

theorem StateEmpty_unparsed_length (cs : List Nat) :
    (StateEmpty cs).unparsed_part.length ≤ cs.length :=
  (StateEmptyCore cs).2

theorem State_unparsed_length (p : Node) (cs : List Nat) :
    (State p cs).unparsed_part.length ≤ cs.length :=
  (StateCore p cs).2

/-- In the general case `State<Prev, chars...>` pushes `Prev` and hands the same
characters to `StateEmpty`. -/
theorem State_of_not_startsWithOp (p : Node) (t : List Nat) (ht : startsWithOp t = false) :
    State p t = ⟨p :: (StateEmpty t).tuple_type, (StateEmpty t).unparsed_part⟩ := by
  cases t with
  | nil => simp [State_nil, StateEmpty_nil]
  | cons c t =>
    have h : ¬ c = 43 ∧ ¬ c = 42 := by simpa [startsWithOp, isOp] using ht
    rw [State_cons, if_neg h.1, if_neg h.2]

theorem State_of_isOp (p : Node) (o : Nat) (t : List Nat) (ho : isOp o = true) :
    State p (o :: t) = ⟨opNode o p :: (StateEmpty t).tuple_type, (StateEmpty t).unparsed_part⟩ := by
  have h : o = 43 ∨ o = 42 := by simpa [isOp] using ho
  rcases h with h | h <;> subst h <;> simp [State_cons, opNode]

/-! ## Balanced patterns -/

theorem depthScan_shift (s : List Nat) (k : Nat) :
    ∀ d e : Nat, depthScan d s = some e → depthScan (d + k) s = some (e + k) := by
  induction s with
  | nil => intro d e h; simpa [depthScan] using h
  | cons c s ih =>
    intro d e h
    unfold depthScan at h ⊢
    by_cases h40 : c = 40
    · rw [if_pos h40] at h ⊢
      have := ih (d + 1) e h
      rwa [show d + 1 + k = d + k + 1 by omega] at this
    · rw [if_neg h40] at h ⊢
      by_cases h41 : c = 41
      · rw [if_pos h41] at h ⊢
        by_cases hd : d = 0
        · rw [if_pos hd] at h; cases h
        · rw [if_neg hd] at h
          rw [if_neg (by omega : ¬ d + k = 0)]
          have := ih (d - 1) e h
          rwa [show d - 1 + k = d + k - 1 by omega] at this
      · rw [if_neg h41] at h ⊢
        exact ih d e h

theorem depthScan_append (a b : List Nat) :
    ∀ d : Nat, depthScan d (a ++ b) = (depthScan d a).bind (fun e => depthScan e b) := by
  induction a with
  | nil => intro d; simp [depthScan]
  | cons c a ih =>
    intro d
    simp only [List.cons_append, depthScan]
    split_ifs <;> simp [ih]

/-- A pattern read from depth `d + 1 + k` down to depth `0` splits at the `')'`
that first closes level `d + 1`. -/
theorem depthScan_split (cs : List Nat) :
    ∀ k d : Nat, depthScan (d + 1 + k) cs = some 0 →
      ∃ s₁ s₂, cs = s₁ ++ 41 :: s₂ ∧ depthScan k s₁ = some 0 ∧ depthScan d s₂ = some 0 := by
  induction cs with
  | nil => intro k d h; simp [depthScan] at h
  | cons c cs ih =>
    intro k d h
    unfold depthScan at h
    by_cases h40 : c = 40
    · rw [if_pos h40] at h
      obtain ⟨s₁, s₂, hcs, h₁, h₂⟩ := ih (k + 1) d h
      refine ⟨c :: s₁, s₂, by rw [hcs]; rfl, ?_, h₂⟩
      unfold depthScan
      rw [if_pos h40]; exact h₁
    · rw [if_neg h40] at h
      by_cases h41 : c = 41
      · rw [if_pos h41, if_neg (by omega : ¬ d + 1 + k = 0)] at h
        cases k with
        | zero =>
          exact ⟨[], cs, by rw [h41]; rfl, rfl, by simpa using h⟩
        | succ k =>
          obtain ⟨s₁, s₂, hcs, h₁, h₂⟩ := ih k d (by simpa using h)
          refine ⟨c :: s₁, s₂, by rw [hcs]; rfl, ?_, h₂⟩
          unfold depthScan
          rw [if_neg h40, if_pos h41, if_neg (by omega : ¬ k + 1 = 0)]
          simpa using h₁
      · rw [if_neg h41] at h
        obtain ⟨s₁, s₂, hcs, h₁, h₂⟩ := ih k d h
        refine ⟨c :: s₁, s₂, by rw [hcs]; rfl, ?_, h₂⟩
        unfold depthScan
        rw [if_neg h40, if_neg h41]; exact h₁

theorem Balanced_of_depthScan (n : Nat) :
    ∀ s : List Nat, s.length ≤ n → depthScan 0 s = some 0 → Balanced s := by
  induction n with
  | zero =>
    intro s hn _
    have : s = [] := List.length_eq_zero.mp (by omega)
    subst this; exact Balanced.nil
  | succ n ih =>
    intro s hn h
    cases s with
    | nil => exact Balanced.nil
    | cons c s =>
      simp only [List.length_cons] at hn
      unfold depthScan at h
      by_cases h40 : c = 40
      · rw [if_pos h40] at h
        obtain ⟨s₁, s₂, hcs, h₁, h₂⟩ := depthScan_split s 0 0 h
        have hlen : s₁.length + s₂.length + 1 = s.length := by
          rw [hcs]; simp; omega
        rw [h40, hcs]
        exact Balanced.group s₁ s₂ (ih s₁ (by omega) h₁) (ih s₂ (by omega) h₂)
      · rw [if_neg h40] at h
        by_cases h41 : c = 41
        · rw [if_pos h41] at h; simp at h
        · rw [if_neg h41] at h
          exact Balanced.char c s h40 h41 (ih s (by omega) h)

theorem depthScan_of_Balanced (s : List Nat) (h : Balanced s) : depthScan 0 s = some 0 := by
  induction h with
  | nil => rfl
  | char c s h40 h41 _ ih =>
    unfold depthScan
    rw [if_neg h40, if_neg h41]; exact ih
  | group s₁ s₂ _ _ ih₁ ih₂ =>
    have e : (40 :: s₁ ++ 41 :: s₂) = 40 :: (s₁ ++ 41 :: s₂) := rfl
    rw [e]
    unfold depthScan
    rw [if_pos rfl, depthScan_append, depthScan_shift s₁ 1 0 0 ih₁]
    simp [depthScan, ih₂]

theorem balanced_iff (s : List Nat) : balanced s = true ↔ Balanced s := by
  constructor
  · intro h
    exact Balanced_of_depthScan s.length s (Nat.le_refl _) (by simpa [balanced] using h)
  · intro h
    simp [balanced, depthScan_of_Balanced s h]

/-! ## Parsing a balanced pattern followed by more input -/

/-- Both states on a balanced pattern `s` followed by `t`, when `t` does not
begin with an operator: the nodes of `s`, then the nodes of `t`, and the
unparsed part of `t`. -/
theorem parse_Balanced_append (s : List Nat) (hs : Balanced s) :
    ∀ t : List Nat, startsWithOp t = false →
      StateEmpty (s ++ t) =
          ⟨(StateEmpty s).tuple_type ++ (StateEmpty t).tuple_type, (StateEmpty t).unparsed_part⟩ ∧
      ∀ p : Node, State p (s ++ t) =
          ⟨(State p s).tuple_type ++ (StateEmpty t).tuple_type, (StateEmpty t).unparsed_part⟩ := by
  induction hs with
  | nil =>
    intro t ht
    refine ⟨by simp [StateEmpty_nil], fun p => ?_⟩
    simp [State_nil, State_of_not_startsWithOp p t ht]
  | char c s h40 h41 _ ih =>
    intro t ht
    obtain ⟨ihE, ihS⟩ := ih t ht
    have hE : StateEmpty (c :: s ++ t) =
        ⟨(StateEmpty (c :: s)).tuple_type ++ (StateEmpty t).tuple_type,
          (StateEmpty t).unparsed_part⟩ := by
      rw [List.cons_append, StateEmpty_cons, StateEmpty_cons c s]
      simp only [if_neg h40, if_neg h41]
      split_ifs
      · simp [ihE]
      · simp [ihE]
      · exact ihS _
    refine ⟨hE, fun p => ?_⟩
    rw [List.cons_append, State_cons, State_cons p c s]
    split_ifs
    · simp [ihE]
    · simp [ihE]
    · rw [← List.cons_append, hE]; simp
  | group s₁ s₂ _ _ ih₁ ih₂ =>
    have hgroup : ∀ u : List Nat, StateEmpty (40 :: s₁ ++ 41 :: u) =
        State (forward_to_regex (StateEmpty s₁).tuple_type) u := by
      intro u
      have h := (ih₁ (41 :: u) (by simp [startsWithOp, isOp])).1
      rw [List.cons_append, StateEmpty_cons]
      simp only [show ¬ (40 = 94) by decide, show ¬ (40 = 36) by decide,
        show ¬ (40 = 41) by decide, if_neg, if_pos]
      rw [h]
      simp [StateEmpty_cons]
    intro t ht
    obtain ⟨_, ihS⟩ := ih₂ t ht
    have hE : StateEmpty ((40 :: s₁ ++ 41 :: s₂) ++ t) =
        ⟨(StateEmpty (40 :: s₁ ++ 41 :: s₂)).tuple_type ++ (StateEmpty t).tuple_type,
          (StateEmpty t).unparsed_part⟩ := by
      have e : (40 :: s₁ ++ 41 :: s₂) ++ t = 40 :: s₁ ++ 41 :: (s₂ ++ t) := by simp
      rw [e, hgroup, hgroup, ihS]
    refine ⟨hE, fun p => ?_⟩
    have e : (40 :: s₁ ++ 41 :: s₂) ++ t = 40 :: ((s₁ ++ 41 :: s₂) ++ t) := by simp
    have e' : (40 :: s₁ ++ 41 :: s₂) = 40 :: (s₁ ++ 41 :: s₂) := rfl
    rw [e, State_cons, e', State_cons p 40]
    simp only [show ¬ (40 = 43) by decide, show ¬ (40 = 42) by decide, if_neg]
    rw [← e, ← e', hE]; simp

theorem StateEmpty_Balanced_unparsed (s : List Nat) (hs : Balanced s) :
    (StateEmpty s).unparsed_part = [] := by
  have h := (parse_Balanced_append s hs [] rfl).1
  rw [List.append_nil] at h
  rw [h]; simp [StateEmpty_nil]

/-- A parenthesised balanced pattern is one group, pending for what follows its
closing parenthesis. -/
theorem StateEmpty_group (s : List Nat) (hs : Balanced s) (u : List Nat) :
    StateEmpty (40 :: s ++ 41 :: u) = State (forward_to_regex (StateEmpty s).tuple_type) u := by
  have h := (parse_Balanced_append s hs (41 :: u) (by simp [startsWithOp, isOp])).1
  rw [List.cons_append, StateEmpty_cons]
  simp only [show ¬ (40 = 94) by decide, show ¬ (40 = 36) by decide,
    show ¬ (40 = 41) by decide, if_neg, if_pos]
  rw [h]
  simp [StateEmpty_cons]

/-- A literal operator character at the end of the input. -/
theorem StateEmpty_single_op (o : Nat) (ho : isOp o = true) :
    StateEmpty [o] = ⟨[Node.Char o], []⟩ := by
  have h : o = 43 ∨ o = 42 := by simpa [isOp] using ho
  rcases h with h | h <;> subst h <;> simp [StateEmpty_cons, State_nil]

/-! ## Patterns without a closing parenthesis -/

theorem parse_no_close (s : List Nat) (hs : 41 ∉ s) :
    ((StateEmpty s).unparsed_part = [] ∧ StateEmpty (s ++ [41]) = StateEmpty s) ∧
    ∀ p : Node, (State p s).unparsed_part = [] ∧ State p (s ++ [41]) = State p s := by
  induction s with
  | nil =>
    refine ⟨⟨by simp [StateEmpty_nil], by simp [StateEmpty_cons, StateEmpty_nil]⟩, fun p => ?_⟩
    simp [State_nil, State_cons, StateEmpty_cons]
  | cons c s ih =>
    have hc : ¬ c = 41 := fun h => hs (by simp [h])
    obtain ⟨⟨ihE₁, ihE₂⟩, ihS⟩ := ih (fun h => hs (List.mem_cons_of_mem _ h))
    have hE : (StateEmpty (c :: s)).unparsed_part = [] ∧
        StateEmpty (c :: s ++ [41]) = StateEmpty (c :: s) := by
      rw [List.cons_append, StateEmpty_cons c s, StateEmpty_cons c (s ++ [41])]
      simp only [if_neg hc, ihE₂, ihE₁]
      split_ifs
      · simp
      · simp
      · simp [State_nil]
      · exact ihS _
    refine ⟨hE, fun p => ?_⟩
    rw [List.cons_append, State_cons p c s, State_cons p c (s ++ [41])]
    simp only [ihE₂]
    split_ifs
    · simp [ihE₁]
    · simp [ihE₁]
    · rw [← List.cons_append, hE.2]; simp [hE.1]

/-! ## The repetition-child invariant -/

theorem repChildOk_parse (n : Nat) :
    ∀ cs : List Nat, cs.length ≤ n →
      repChildOkList (StateEmpty cs).tuple_type = true ∧
      ∀ p : Node, p.isAtom = true → p.repChildOk = true →
        repChildOkList (State p cs).tuple_type = true := by
  induction n with
  | zero =>
    intro cs hn
    have : cs = [] := List.length_eq_zero.mp (by omega)
    subst this
    refine ⟨by simp [StateEmpty_nil, repChildOkList], fun p _ hp => ?_⟩
    simp [State_nil, repChildOkList, hp]
  | succ n ih =>
    intro cs hn
    cases cs with
    | nil =>
      refine ⟨by simp [StateEmpty_nil, repChildOkList], fun p _ hp => ?_⟩
      simp [State_nil, repChildOkList, hp]
    | cons c chars =>
      simp only [List.length_cons] at hn
      have hchars := ih chars (by omega)
      have hrest := ih (StateEmpty chars).unparsed_part
        (Nat.le_trans (StateEmpty_unparsed_length chars) (by omega))
      have hE : repChildOkList (StateEmpty (c :: chars)).tuple_type = true := by
        rw [StateEmpty_cons]
        split_ifs
        · simp [repChildOkList, Node.repChildOk, hchars.1]
        · simp [repChildOkList, Node.repChildOk, hchars.1]
        · simp [repChildOkList]
        · exact hrest.2 _ rfl (by simp [forward_to_regex, Node.repChildOk, hchars.1])
        · exact hchars.2 _ rfl (by simp [Node.repChildOk])
      refine ⟨hE, fun p hp₁ hp₂ => ?_⟩
      rw [State_cons]
      split_ifs
      · simp [repChildOkList, Node.repChildOk, hchars.1, hp₁, hp₂]
      · simp [repChildOkList, Node.repChildOk, hchars.1, hp₁, hp₂]
      · simp [repChildOkList, hE, hp₂]

/-! ## Induction along the recursion of the two states -/

/-- A property of both states holds for every input when it follows the
recursion of the templates: `StateEmpty<c, chars...>` uses both states on
`chars` and `State` on the unparsed part of `StateEmpty<chars...>`, and
`State<Prev, c, chars...>` uses `StateEmpty` on `chars` and on `c, chars...`. -/
theorem parse_induction (PE : List Nat → Prop) (PS : Node → List Nat → Prop)
    (hEnil : PE [])
    (hEcons : ∀ c chars, PE chars → (∀ p, PS p chars) →
      (∀ p, PS p (StateEmpty chars).unparsed_part) → PE (c :: chars))
    (hSnil : ∀ p, PS p [])
    (hScons : ∀ p c chars, PE chars → PE (c :: chars) → PS p (c :: chars)) :
    ∀ cs : List Nat, PE cs ∧ ∀ p, PS p cs := by
  have key : ∀ n : Nat, ∀ cs : List Nat, cs.length ≤ n → PE cs ∧ ∀ p, PS p cs := by
    intro n
    induction n with
    | zero =>
      intro cs hn
      have : cs = [] := List.length_eq_zero.mp (by omega)
      subst this
      exact ⟨hEnil, hSnil⟩
    | succ n ih =>
      intro cs hn
      cases cs with
      | nil => exact ⟨hEnil, hSnil⟩
      | cons c chars =>
        simp only [List.length_cons] at hn
        have hchars := ih chars (by omega)
        have hrest := ih (StateEmpty chars).unparsed_part
          (Nat.le_trans (StateEmpty_unparsed_length chars) (by omega))
        have hE : PE (c :: chars) := hEcons c chars hchars.1 hchars.2 hrest.2
        exact ⟨hE, fun p => hScons p c chars hchars.1 hE⟩
  intro cs
  exact key cs.length cs (Nat.le_refl _)

/-! ## The unparsed part -/

theorem afterUnmatchedClose_succ (cs : List Nat) :
    ∀ k d : Nat, afterUnmatchedClose (d + 1 + k) cs =
      (afterUnmatchedClose k cs).bind (afterUnmatchedClose d) := by
  induction cs with
  | nil => intro k d; simp [afterUnmatchedClose]
  | cons c cs ih =>
    intro k d
    by_cases h40 : c = 40
    · simp only [afterUnmatchedClose, if_pos h40]
      exact ih (k + 1) d
    · by_cases h41 : c = 41
      · cases k with
        | zero =>
          simp [afterUnmatchedClose, h41]
        | succ k =>
          simp only [afterUnmatchedClose, if_neg h40, if_pos h41,
            if_neg (by omega : ¬ d + 1 + (k + 1) = 0), if_neg (by omega : ¬ k + 1 = 0)]
          have := ih k d
          simpa using this
      · simp only [afterUnmatchedClose, if_neg h40, if_neg h41]
        exact ih k d

/-- The unparsed part of both states is what follows the first unmatched `')'`,
and is empty when there is none. -/
theorem unparsed_eq_afterUnmatchedClose (cs : List Nat) :
    (StateEmpty cs).unparsed_part = (afterUnmatchedClose 0 cs).getD [] ∧
    ∀ p : Node, (State p cs).unparsed_part = (afterUnmatchedClose 0 cs).getD [] := by
  refine parse_induction
    (fun cs => (StateEmpty cs).unparsed_part = (afterUnmatchedClose 0 cs).getD [])
    (fun p cs => (State p cs).unparsed_part = (afterUnmatchedClose 0 cs).getD [])
    ?_ ?_ ?_ ?_ cs
  · simp [StateEmpty_nil, afterUnmatchedClose]
  · intro c chars hE hS hR
    rw [StateEmpty_cons]
    split_ifs with h94 h36 h41 h40
    · simp [afterUnmatchedClose, h94, hE]
    · simp [afterUnmatchedClose, h36, hE]
    · simp [afterUnmatchedClose, h41]
    · rw [hR, hE]
      have := afterUnmatchedClose_succ chars 0 0
      simp only [Nat.zero_add, Nat.add_zero] at this
      simp only [afterUnmatchedClose, if_pos h40, Nat.zero_add, this]
      cases afterUnmatchedClose 0 chars <;> simp [afterUnmatchedClose]
    · rw [hS]
      simp [afterUnmatchedClose, h40, h41]
  · intro p
    simp [State_nil, afterUnmatchedClose]
  · intro p c chars hE hEc
    rw [State_cons]
    split_ifs with h43 h42
    · simp [afterUnmatchedClose, h43, hE]
    · simp [afterUnmatchedClose, h42, hE]
    · exact hEc

/-- The unparsed part of both states is a final segment of the input. -/
theorem unparsed_is_final_segment (cs : List Nat) :
    (∃ front, cs = front ++ (StateEmpty cs).unparsed_part) ∧
    ∀ p : Node, ∃ front, cs = front ++ (State p cs).unparsed_part := by
  refine parse_induction
    (fun cs => ∃ front, cs = front ++ (StateEmpty cs).unparsed_part)
    (fun p cs => ∃ front, cs = front ++ (State p cs).unparsed_part)
    ?_ ?_ ?_ ?_ cs
  · exact ⟨[], by simp [StateEmpty_nil]⟩
  · intro c chars hE hS hR
    obtain ⟨f, hf⟩ := hE
    rw [StateEmpty_cons]
    split_ifs with h94 h36 h41 h40
    · exact ⟨c :: f, by simpa using hf⟩
    · exact ⟨c :: f, by simpa using hf⟩
    · exact ⟨[c], by simp⟩
    · obtain ⟨g, hg⟩ := hR (forward_to_regex (StateEmpty chars).tuple_type)
      refine ⟨c :: (f ++ g), ?_⟩
      have e : chars = f ++ (g ++ (State (forward_to_regex (StateEmpty chars).tuple_type)
          (StateEmpty chars).unparsed_part).unparsed_part) := by
        rw [← hg]; exact hf
      simpa using e
    · obtain ⟨g, hg⟩ := hS (Node.Char c)
      exact ⟨c :: g, by simpa using hg⟩
  · intro p
    exact ⟨[], by simp [State_nil]⟩
  · intro p c chars hE hEc
    obtain ⟨f, hf⟩ := hE
    rw [State_cons]
    split_ifs with h43 h42
    · exact ⟨c :: f, by simpa using hf⟩
    · exact ⟨c :: f, by simpa using hf⟩
    · exact hEc

/-! ## A closing parenthesis appended to the input -/

/-- Appending `')'` to the input of either state leaves the nodes unchanged; the
unparsed part stays empty, or gains the appended `')'`. -/
theorem parse_append_close (cs : List Nat) :
    ((StateEmpty (cs ++ [41])).tuple_type = (StateEmpty cs).tuple_type ∧
      ((StateEmpty (cs ++ [41])).unparsed_part = [] ∧ (StateEmpty cs).unparsed_part = [] ∨
        (StateEmpty (cs ++ [41])).unparsed_part = (StateEmpty cs).unparsed_part ++ [41])) ∧
    ∀ p : Node,
      (State p (cs ++ [41])).tuple_type = (State p cs).tuple_type ∧
      ((State p (cs ++ [41])).unparsed_part = [] ∧ (State p cs).unparsed_part = [] ∨
        (State p (cs ++ [41])).unparsed_part = (State p cs).unparsed_part ++ [41]) := by
  refine parse_induction
    (fun cs => (StateEmpty (cs ++ [41])).tuple_type = (StateEmpty cs).tuple_type ∧
      ((StateEmpty (cs ++ [41])).unparsed_part = [] ∧ (StateEmpty cs).unparsed_part = [] ∨
        (StateEmpty (cs ++ [41])).unparsed_part = (StateEmpty cs).unparsed_part ++ [41]))
    (fun p cs => (State p (cs ++ [41])).tuple_type = (State p cs).tuple_type ∧
      ((State p (cs ++ [41])).unparsed_part = [] ∧ (State p cs).unparsed_part = [] ∨
        (State p (cs ++ [41])).unparsed_part = (State p cs).unparsed_part ++ [41]))
    ?_ ?_ ?_ ?_ cs
  · simp [StateEmpty_cons, StateEmpty_nil]
  · intro c chars hE hS hR
    obtain ⟨hEn, hEr⟩ := hE
    rw [List.cons_append, StateEmpty_cons c chars, StateEmpty_cons c (chars ++ [41])]
    split_ifs with h94 h36 h41 h40
    · exact ⟨by simp [hEn], hEr⟩
    · exact ⟨by simp [hEn], hEr⟩
    · exact ⟨rfl, Or.inr rfl⟩
    · rw [hEn]
      rcases hEr with ⟨h₁, h₂⟩ | h
      · rw [h₁, h₂]
        exact ⟨rfl, Or.inl ⟨by simp [State_nil], by simp [State_nil]⟩⟩
      · rw [h]
        exact hR _
    · exact hS _
  · intro p
    simp [State_cons, State_nil, StateEmpty_cons]
  · intro p c chars hE hEc
    obtain ⟨hEn, hEr⟩ := hE
    obtain ⟨hEcn, hEcr⟩ := hEc
    rw [List.cons_append] at hEcn hEcr
    rw [List.cons_append, State_cons p c chars, State_cons p c (chars ++ [41])]
    split_ifs with h43 h42
    · exact ⟨by simp [hEn], hEr⟩
    · exact ⟨by simp [hEn], hEr⟩
    · exact ⟨by simp [hEcn], hEcr⟩

/-! ## Rendering the nodes of a balanced pattern -/

theorem render_parse_Balanced (s : List Nat) (hs : Balanced s) :
    renderList (StateEmpty s).tuple_type = s ∧
    ∀ p : Node, renderList (State p s).tuple_type = p.render ++ s := by
  induction hs with
  | nil =>
    exact ⟨by simp [StateEmpty_nil, renderList], fun p => by simp [State_nil, renderList]⟩
  | char c s h40 h41 _ ih =>
    obtain ⟨ihE, ihS⟩ := ih
    have hE : renderList (StateEmpty (c :: s)).tuple_type = c :: s := by
      rw [StateEmpty_cons]
      simp only [if_neg h40, if_neg h41]
      split_ifs with h94 h36
      · simp [renderList, Node.render, ihE, h94]
      · simp [renderList, Node.render, ihE, h36]
      · rw [ihS]; simp [Node.render]
    refine ⟨hE, fun p => ?_⟩
    rw [State_cons]
    split_ifs with h43 h42
    · simp [renderList, Node.render, ihE, h43]
    · simp [renderList, Node.render, ihE, h42]
    · simp [renderList, hE]
  | group s₁ s₂ h₁ _ ih₁ ih₂ =>
    have hE : renderList (StateEmpty (40 :: s₁ ++ 41 :: s₂)).tuple_type =
        40 :: s₁ ++ 41 :: s₂ := by
      rw [StateEmpty_group s₁ h₁, ih₂.2]
      simp [forward_to_regex, Node.render, ih₁.1]
    refine ⟨hE, fun p => ?_⟩
    have e : (40 :: s₁ ++ 41 :: s₂) = 40 :: (s₁ ++ 41 :: s₂) := rfl
    rw [e, State_cons]
    simp only [show ¬ (40 = 43) by decide, show ¬ (40 = 42) by decide, if_neg]
    rw [← e]
    simp only [renderList, hE]

/-! ## Patterns of plain characters -/

theorem parse_plain (s : List Nat) (hs : ∀ c ∈ s, isPlain c = true) :
    StateEmpty s = ⟨s.map Node.Char, []⟩ ∧
    ∀ p : Node, State p s = ⟨p :: s.map Node.Char, []⟩ := by
  induction s with
  | nil => exact ⟨StateEmpty_nil, State_nil⟩
  | cons c s ih =>
    obtain ⟨_, ihS⟩ := ih (fun x hx => hs x (List.mem_cons_of_mem _ hx))
    have hc : ¬ c = 94 ∧ ¬ c = 36 ∧ ¬ c = 40 ∧ ¬ c = 41 ∧ ¬ c = 43 ∧ ¬ c = 42 := by
      have := hs c (List.mem_cons_self _ _)
      simpa [isPlain, and_assoc] using this
    obtain ⟨h94, h36, h40, h41, h43, h42⟩ := hc
    have hE : StateEmpty (c :: s) = ⟨(c :: s).map Node.Char, []⟩ := by
      rw [StateEmpty_cons, if_neg h94, if_neg h36, if_neg h41, if_neg h40, ihS]
      rfl
    refine ⟨hE, fun p => ?_⟩
    rw [State_cons, if_neg h43, if_neg h42, hE]

/-- The function `Parser::get` succeeds with the nodes when `StateEmpty` leaves nothing
unparsed. -/
theorem Parser_get_of_StateEmpty (cs : List Nat) (ns : List Node)
    (h : StateEmpty cs = ⟨ns, []⟩) : Parser.get cs = some (Node.RegExp ns) := by
  simp [Parser.get, h, forward_to_regex]

/-! ## The claims of the specification -/

/-- C1: the pattern `"a)"` has an unmatched closing parenthesis, and the
top-level parse accepts it: `StateEmpty` drops the `')'`, the unparsed part is
empty, and `Parser::get` returns the node sequence `[Literal(a)]`. -/
theorem unmatched_close_at_end_is_accepted :
    depthScan 0 [97, 41] = none ∧
    (StateEmpty [97, 41]).unparsed_part = [] ∧
    Parser.get [97, 41] = some (Node.RegExp [Node.Char 97]) := by
  refine ⟨by decide, ?_, ?_⟩ <;>
    simp [Parser.get, StateEmpty_cons, State_cons, forward_to_regex]

/-- C2: for every balanced pattern the top-level parse succeeds: `StateEmpty`
over the whole pattern leaves an empty unparsed part, so `Parser::get` yields
the node sequence. -/
theorem balanced_parse_succeeds (s : List Nat) (hs : balanced s = true) :
    (StateEmpty s).unparsed_part = [] ∧
    Parser.get s = some (Node.RegExp (StateEmpty s).tuple_type) := by
  have h := StateEmpty_Balanced_unparsed s ((balanced_iff s).mp hs)
  exact ⟨h, by simp [Parser.get, h, forward_to_regex]⟩

theorem balanced_parse_succeeds_witness :
    balanced [40, 97, 40, 98, 41, 41] = true ∧
    Parser.get [40, 97, 40, 98, 41, 41] =
      some (Node.RegExp [Node.RegExp [Node.Char 97, Node.RegExp [Node.Char 98]]]) := by
  refine ⟨by decide, ?_⟩
  have h := (balanced_parse_succeeds [40, 97, 40, 98, 41, 41] (by decide)).2
  simpa [StateEmpty_cons, StateEmpty_nil, State_cons, State_nil, forward_to_regex] using h

/-- C3: an unterminated `'('` is accepted: for every `s` without `')'`, the
top-level parse of `"(" ++ s` succeeds with the single node `Group(nodes(s))`,
and the closed pattern `"(" ++ s ++ ")"` parses to the same result; `"(a"`
yields `[Group(Literal(a))]`. -/
theorem unterminated_group_is_accepted (s : List Nat) (hs : 41 ∉ s) :
    Parser.get (40 :: s) = some (Node.RegExp [Node.RegExp (StateEmpty s).tuple_type]) ∧
    Parser.get (40 :: s ++ [41]) = Parser.get (40 :: s) ∧
    Parser.get [40, 97] = some (Node.RegExp [Node.RegExp [Node.Char 97]]) := by
  obtain ⟨⟨h₁, h₂⟩, _⟩ := parse_no_close s hs
  have hopen : StateEmpty (40 :: s) =
      ⟨[Node.RegExp (StateEmpty s).tuple_type], []⟩ := by
    simp [StateEmpty_cons, h₁, State_nil, forward_to_regex]
  have hclosed : StateEmpty (40 :: s ++ [41]) = StateEmpty (40 :: s) := by
    rw [List.cons_append, StateEmpty_cons 40 (s ++ [41]), StateEmpty_cons 40 s, h₂]
    simp
  refine ⟨Parser_get_of_StateEmpty _ _ hopen, by unfold Parser.get; rw [hclosed], ?_⟩
  simp [Parser.get, StateEmpty_cons, StateEmpty_nil, State_cons, State_nil, forward_to_regex]

theorem unterminated_group_is_accepted_witness :
    41 ∉ [40, 97] ∧
    Parser.get [40, 40, 97] = some (Node.RegExp [Node.RegExp [Node.RegExp [Node.Char 97]]]) ∧
    Parser.get [40, 40, 97, 41] = Parser.get [40, 40, 97] := by
  have h := unterminated_group_is_accepted [40, 97] (by decide)
  refine ⟨by decide, ?_, h.2.1⟩
  simpa [StateEmpty_cons, StateEmpty_nil, State_cons, State_nil, forward_to_regex] using h.1

/-- C4: group round-trip: for every balanced `s` the top-level parse of
`"(" ++ s ++ ")"` succeeds with exactly one node, `Group(nodes(s))`; `"(a)"`
yields `[Group(Literal(a))]` and `"(a(b))"` yields
`[Group(Literal(a), Group(Literal(b)))]`. -/
theorem group_round_trip (s : List Nat) (hs : balanced s = true) :
    Parser.get (40 :: s ++ [41]) =
      some (Node.RegExp [Node.RegExp (StateEmpty s).tuple_type]) ∧
    Parser.get [40, 97, 41] = some (Node.RegExp [Node.RegExp [Node.Char 97]]) ∧
    Parser.get [40, 97, 40, 98, 41, 41] =
      some (Node.RegExp [Node.RegExp [Node.Char 97, Node.RegExp [Node.Char 98]]]) := by
  refine ⟨?_, ?_, ?_⟩
  · have h := StateEmpty_group s ((balanced_iff s).mp hs) []
    rw [State_nil] at h
    exact Parser_get_of_StateEmpty _ _ h
  · simp [Parser.get, StateEmpty_cons, StateEmpty_nil, State_cons, State_nil, forward_to_regex]
  · simp [Parser.get, StateEmpty_cons, StateEmpty_nil, State_cons, State_nil, forward_to_regex]

theorem group_round_trip_witness :
    balanced [97, 98] = true ∧
    Parser.get [40, 97, 98, 41] =
      some (Node.RegExp [Node.RegExp [Node.Char 97, Node.Char 98]]) := by
  have h := (group_round_trip [97, 98] (by decide)).1
  refine ⟨by decide, ?_⟩
  simpa [StateEmpty_cons, StateEmpty_nil, State_cons, State_nil] using h

/-- C5: a closed group is a pending atom for what follows its `')'`: for every
balanced `s`, operator `o` and sequence `t`, parsing `"(" ++ s ++ ")" ++ [o] ++ t`
yields `Op(Group(nodes(s))) :: nodes(t)` and the unparsed part of `t`;
`"(ab)+c"` yields `[Plus(Group(Literal(a), Literal(b))), Literal(c)]` and
`"(a)+"` yields `[Plus(Group(Literal(a)))]`. -/
theorem closed_group_takes_operator (s : List Nat) (o : Nat) (t : List Nat)
    (hs : balanced s = true) (ho : isOp o = true) :
    StateEmpty (40 :: s ++ 41 :: o :: t) =
      ⟨opNode o (Node.RegExp (StateEmpty s).tuple_type) :: (StateEmpty t).tuple_type,
        (StateEmpty t).unparsed_part⟩ ∧
    Parser.get [40, 97, 98, 41, 43, 99] =
      some (Node.RegExp [Node.Plus (Node.RegExp [Node.Char 97, Node.Char 98]), Node.Char 99]) ∧
    Parser.get [40, 97, 41, 43] =
      some (Node.RegExp [Node.Plus (Node.RegExp [Node.Char 97])]) := by
  refine ⟨?_, ?_, ?_⟩
  · rw [StateEmpty_group s ((balanced_iff s).mp hs), State_of_isOp _ o t ho]
    rfl
  · simp [Parser.get, StateEmpty_cons, StateEmpty_nil, State_cons, State_nil, forward_to_regex]
  · simp [Parser.get, StateEmpty_cons, StateEmpty_nil, State_cons, State_nil, forward_to_regex]

theorem closed_group_takes_operator_witness :
    balanced [97] = true ∧ isOp 42 = true ∧
    StateEmpty [40, 97, 41, 42, 98, 41, 99] =
      ⟨[Node.Star (Node.RegExp [Node.Char 97]), Node.Char 98], [99]⟩ := by
  have h := (closed_group_takes_operator [97] 42 [98, 41, 99] (by decide) (by decide)).1
  refine ⟨by decide, by decide, ?_⟩
  simpa [StateEmpty_cons, StateEmpty_nil, State_cons, State_nil, opNode] using h

/-- C6: postfix operators do not chain: for every atom-producing start `P` with
atom `atom` and operators `o1`, `o2`, the top-level parse of `P ++ [o1, o2]` is
exactly `[Op1(atom), Literal(o2)]`; `"a**"` yields `[Star(Literal(a)), Literal(*)]`
and `"a+*"` yields `[Plus(Literal(a)), Literal(*)]`. -/
theorem postfix_operators_do_not_chain (P : List Nat) (atom : Node) (o1 o2 : Nat)
    (hP : AtomStart P atom) (h1 : isOp o1 = true) (h2 : isOp o2 = true) :
    Parser.get (P ++ [o1, o2]) = some (Node.RegExp [opNode o1 atom, Node.Char o2]) ∧
    Parser.get [97, 42, 42] = some (Node.RegExp [Node.Star (Node.Char 97), Node.Char 42]) ∧
    Parser.get [97, 43, 42] = some (Node.RegExp [Node.Plus (Node.Char 97), Node.Char 42]) := by
  refine ⟨?_, ?_, ?_⟩
  · cases hP with
    | char c h94 h36 h40 h41 =>
      have h : StateEmpty ([c] ++ [o1, o2]) = ⟨[opNode o1 (Node.Char c), Node.Char o2], []⟩ := by
        rw [List.singleton_append, StateEmpty_cons, if_neg h94, if_neg h36, if_neg h41,
          if_neg h40, State_of_isOp _ o1 [o2] h1, StateEmpty_single_op o2 h2]
      exact Parser_get_of_StateEmpty _ _ h
    | group s hs =>
      have h : StateEmpty ((40 :: s ++ [41]) ++ [o1, o2]) =
          ⟨[opNode o1 (Node.RegExp (StateEmpty s).tuple_type), Node.Char o2], []⟩ := by
        have e : (40 :: s ++ [41]) ++ [o1, o2] = 40 :: s ++ 41 :: [o1, o2] := by simp
        rw [e, StateEmpty_group s ((balanced_iff s).mp hs), State_of_isOp _ o1 [o2] h1,
          StateEmpty_single_op o2 h2]
        rfl
      exact Parser_get_of_StateEmpty _ _ h
  · simp [Parser.get, StateEmpty_cons, StateEmpty_nil, State_cons, State_nil, forward_to_regex]
  · simp [Parser.get, StateEmpty_cons, StateEmpty_nil, State_cons, State_nil, forward_to_regex]

theorem postfix_operators_do_not_chain_witness :
    AtomStart [40, 97, 41] (Node.RegExp [Node.Char 97]) ∧ isOp 43 = true ∧ isOp 42 = true ∧
    Parser.get [40, 97, 41, 43, 42] =
      some (Node.RegExp [Node.Plus (Node.RegExp [Node.Char 97]), Node.Char 42]) := by
  have hA : AtomStart [40, 97, 41] (Node.RegExp [Node.Char 97]) := by
    have h := AtomStart.group [97] (by decide)
    simpa [StateEmpty_cons, StateEmpty_nil, State_nil] using h
  have h := (postfix_operators_do_not_chain [40, 97, 41] (Node.RegExp [Node.Char 97]) 43 42
    hA (by decide) (by decide)).1
  refine ⟨hA, by decide, by decide, ?_⟩
  simpa [opNode] using h

/-- C7: anchors are emitted immediately and take no postfix operator: parsing
`'^' :: t` yields `Begin :: nodes(t)` and `'$' :: t` yields `End :: nodes(t)`,
with the unparsed part of `t`; an operator right after an anchor is parsed as
the literal `Pending(Literal(o))`; `"^+"` yields `[Begin, Literal(+)]`, `"$*"`
yields `[End, Literal(*)]` and `"^a$"` yields `[Begin, Literal(a), End]`. -/
theorem anchors_are_emitted_immediately (t : List Nat) :
    StateEmpty (94 :: t) =
      ⟨Node.Begin :: (StateEmpty t).tuple_type, (StateEmpty t).unparsed_part⟩ ∧
    StateEmpty (36 :: t) =
      ⟨Node.End :: (StateEmpty t).tuple_type, (StateEmpty t).unparsed_part⟩ ∧
    StateEmpty (94 :: 43 :: t) =
      ⟨Node.Begin :: (State (Node.Char 43) t).tuple_type,
        (State (Node.Char 43) t).unparsed_part⟩ ∧
    StateEmpty (94 :: 42 :: t) =
      ⟨Node.Begin :: (State (Node.Char 42) t).tuple_type,
        (State (Node.Char 42) t).unparsed_part⟩ ∧
    StateEmpty (36 :: 43 :: t) =
      ⟨Node.End :: (State (Node.Char 43) t).tuple_type,
        (State (Node.Char 43) t).unparsed_part⟩ ∧
    StateEmpty (36 :: 42 :: t) =
      ⟨Node.End :: (State (Node.Char 42) t).tuple_type,
        (State (Node.Char 42) t).unparsed_part⟩ ∧
    Parser.get [94, 43] = some (Node.RegExp [Node.Begin, Node.Char 43]) ∧
    Parser.get [36, 42] = some (Node.RegExp [Node.End, Node.Char 42]) ∧
    Parser.get [94, 97, 36] = some (Node.RegExp [Node.Begin, Node.Char 97, Node.End]) := by
  refine ⟨?_, ?_, ?_, ?_, ?_, ?_, ?_, ?_, ?_⟩ <;>
    simp [Parser.get, StateEmpty_cons, StateEmpty_nil, State_cons, State_nil, forward_to_regex]

/-- C8: the repetition-child invariant: for every input, in the node sequence
the parser produces, at every nesting depth, the child of every `Plus` and
`Star` is a literal or a group. -/
theorem repetition_child_is_atom (cs : List Nat) :
    repChildOkList (StateEmpty cs).tuple_type = true :=
  (repChildOk_parse cs.length cs (Nat.le_refl _)).1

/-- C9: an operator character met in the empty state is a literal atom:
parsing `o :: t` in `StateEmpty` is `State<Char<o>, t...>`; the top-level
parses of `"+"` and `"*a"` succeed with `[Literal(+)]` and
`[Literal(*), Literal(a)]`. -/
theorem operator_in_empty_state_is_literal (t : List Nat) :
    StateEmpty (43 :: t) = State (Node.Char 43) t ∧
    StateEmpty (42 :: t) = State (Node.Char 42) t ∧
    Parser.get [43] = some (Node.RegExp [Node.Char 43]) ∧
    Parser.get [42, 97] = some (Node.RegExp [Node.Char 42, Node.Char 97]) := by
  refine ⟨?_, ?_, ?_, ?_⟩ <;>
    simp [Parser.get, StateEmpty_cons, StateEmpty_nil, State_cons, State_nil, forward_to_regex]

/-- C10: the patterns `"+a"` and `"a**"` have an operator character in the
empty state, and the top-level parse accepts both, with the operator as a
literal: `[Literal(+), Literal(a)]` and `[Star(Literal(a)), Literal(*)]`. -/
theorem operator_in_empty_state_is_accepted :
    Parser.get [43, 97] = some (Node.RegExp [Node.Char 43, Node.Char 97]) ∧
    Parser.get [97, 42, 42] = some (Node.RegExp [Node.Star (Node.Char 97), Node.Char 42]) := by
  constructor <;>
    simp [Parser.get, StateEmpty_cons, StateEmpty_nil, State_cons, State_nil, forward_to_regex]

/-- C11: plain literals: for every pattern made only of characters other than
`'^'`, `'$'`, `'('`, `')'`, `'+'`, `'*'`, the top-level parse succeeds with one
`Literal` per character, in order; `"ab"` yields `[Literal(a), Literal(b)]`. -/
theorem plain_pattern_is_literals (s : List Nat) (hs : ∀ c ∈ s, isPlain c = true) :
    Parser.get s = some (Node.RegExp (s.map Node.Char)) ∧
    Parser.get [97, 98] = some (Node.RegExp [Node.Char 97, Node.Char 98]) := by
  refine ⟨Parser_get_of_StateEmpty _ _ (parse_plain s hs).1, ?_⟩
  simp [Parser.get, StateEmpty_cons, StateEmpty_nil, State_cons, State_nil, forward_to_regex]

theorem plain_pattern_is_literals_witness :
    (∀ c ∈ [120, 121, 122], isPlain c = true) ∧
    Parser.get [120, 121, 122] =
      some (Node.RegExp [Node.Char 120, Node.Char 121, Node.Char 122]) :=
  ⟨by decide, (plain_pattern_is_literals [120, 121, 122] (by decide)).1⟩

/-- C12: postfix application to a literal: for every character `c` other than
`'^'`, `'$'`, `'('`, `')'`, every operator `o` and every `t`, parsing
`c :: o :: t` yields `Op(Literal(c)) :: nodes(t)` with the unparsed part of `t`;
`"a+b*"` yields `[Plus(Literal(a)), Star(Literal(b))]`. -/
theorem operator_applies_to_literal (c o : Nat) (t : List Nat)
    (h94 : c ≠ 94) (h36 : c ≠ 36) (h40 : c ≠ 40) (h41 : c ≠ 41) (ho : isOp o = true) :
    StateEmpty (c :: o :: t) =
      ⟨opNode o (Node.Char c) :: (StateEmpty t).tuple_type, (StateEmpty t).unparsed_part⟩ ∧
    Parser.get [97, 43, 98, 42] =
      some (Node.RegExp [Node.Plus (Node.Char 97), Node.Star (Node.Char 98)]) := by
  refine ⟨?_, ?_⟩
  · rw [StateEmpty_cons, if_neg h94, if_neg h36, if_neg h41, if_neg h40, State_of_isOp _ o t ho]
  · simp [Parser.get, StateEmpty_cons, StateEmpty_nil, State_cons, State_nil, forward_to_regex]

theorem operator_applies_to_literal_witness :
    isOp 42 = true ∧
    StateEmpty [43, 42, 98, 41, 99] = ⟨[Node.Star (Node.Char 43), Node.Char 98], [99]⟩ := by
  have h := (operator_applies_to_literal 43 42 [98, 41, 99] (by decide) (by decide)
    (by decide) (by decide) (by decide)).1
  refine ⟨by decide, ?_⟩
  rw [h]
  simp [StateEmpty_cons, StateEmpty_nil, State_cons, State_nil, opNode]

/-- C13: the exact acceptance condition of the top-level parse: `Parser::get`
succeeds if and only if the pattern has no unmatched `')'` or its first
unmatched `')'` is its last character; it fails if and only if at least one
character follows the first unmatched `')'`, and the unparsed part is then
exactly those characters. -/
theorem acceptance_condition (cs : List Nat) :
    ((Parser.get cs).isSome = true ↔
      (afterUnmatchedClose 0 cs = none ∨ afterUnmatchedClose 0 cs = some [])) ∧
    (Parser.get cs = none ↔
      ∃ r, r ≠ [] ∧ afterUnmatchedClose 0 cs = some r ∧ (StateEmpty cs).unparsed_part = r) := by
  have h := (unparsed_eq_afterUnmatchedClose cs).1
  unfold Parser.get
  simp only [h]
  cases hr : afterUnmatchedClose 0 cs with
  | none => simp
  | some r =>
    cases r with
    | nil => simp
    | cons x r => simp

theorem acceptance_condition_witness :
    Parser.get [40, 97, 41, 41, 98, 41] = none ∧
    (StateEmpty [40, 97, 41, 41, 98, 41]).unparsed_part = [98, 41] ∧
    (Parser.get [40, 97, 41, 41]).isSome = true := by
  have h₁ := (acceptance_condition [40, 97, 41, 41, 98, 41]).2
  have h₂ := (acceptance_condition [40, 97, 41, 41]).1
  have e₁ : afterUnmatchedClose 0 [40, 97, 41, 41, 98, 41] = some [98, 41] := by decide
  have e₂ : afterUnmatchedClose 0 [40, 97, 41, 41] = some [] := by decide
  refine ⟨?_, ?_, h₂.mpr (Or.inr e₂)⟩
  · apply h₁.mpr
    refine ⟨[98, 41], by simp, e₁, ?_⟩
    simp [StateEmpty_cons, StateEmpty_nil, State_cons, State_nil]
  · simp [StateEmpty_cons, StateEmpty_nil, State_cons, State_nil]

/-- C14: appending a closing parenthesis never changes the parsed nodes: for
every `s`, the `tuple_type` of `StateEmpty` over `s ++ ")"` is the `tuple_type`
of `StateEmpty` over `s`. -/
theorem appended_close_keeps_nodes (s : List Nat) :
    (StateEmpty (s ++ [41])).tuple_type = (StateEmpty s).tuple_type ∧
    (StateEmpty [40, 97, 41]).tuple_type = [Node.RegExp [Node.Char 97]] ∧
    (StateEmpty [40, 97]).tuple_type = [Node.RegExp [Node.Char 97]] := by
  refine ⟨(parse_append_close s).1.1, ?_, ?_⟩ <;>
    simp [StateEmpty_cons, StateEmpty_nil, State_cons, State_nil, forward_to_regex]

/-- C15: the concatenation law: for every balanced `s` and every `t` that does
not begin with `'+'` or `'*'`, parsing `s ++ t` yields `nodes(s) ++ nodes(t)`
and the unparsed part of `t`. -/
theorem concatenation_law (s t : List Nat)
    (hs : balanced s = true) (ht : startsWithOp t = false) :
    StateEmpty (s ++ t) =
      ⟨(StateEmpty s).tuple_type ++ (StateEmpty t).tuple_type, (StateEmpty t).unparsed_part⟩ :=
  (parse_Balanced_append s ((balanced_iff s).mp hs) t ht).1

theorem concatenation_law_witness :
    balanced [40, 97, 41, 98] = true ∧ startsWithOp [99, 42, 41, 100] = false ∧
    StateEmpty [40, 97, 41, 98, 99, 42, 41, 100] =
      ⟨[Node.RegExp [Node.Char 97], Node.Char 98, Node.Star (Node.Char 99)], [100]⟩ := by
  have h := concatenation_law [40, 97, 41, 98] [99, 42, 41, 100] (by decide) (by decide)
  refine ⟨by decide, by decide, ?_⟩
  rw [show [40, 97, 41, 98, 99, 42, 41, 100] = [40, 97, 41, 98] ++ [99, 42, 41, 100] from rfl, h]
  simp [StateEmpty_cons, StateEmpty_nil, State_cons, State_nil, forward_to_regex]

/-- C16: the parse is lossless on balanced patterns: for every balanced `s` the
top-level parse succeeds and rendering its node sequence back to text gives
`s` exactly. -/
theorem parse_is_lossless (s : List Nat) (hs : balanced s = true) :
    ∃ ns, Parser.get s = some (Node.RegExp ns) ∧ renderList ns = s := by
  have hb := (balanced_iff s).mp hs
  refine ⟨(StateEmpty s).tuple_type, ?_, (render_parse_Balanced s hb).1⟩
  exact Parser_get_of_StateEmpty _ _
    (by rw [← StateEmpty_Balanced_unparsed s hb])

theorem parse_is_lossless_witness :
    balanced [94, 40, 97, 43, 41, 42, 43, 36] = true ∧
    ∃ ns, Parser.get [94, 40, 97, 43, 41, 42, 43, 36] = some (Node.RegExp ns) ∧
      renderList ns = [94, 40, 97, 43, 41, 42, 43, 36] :=
  ⟨by decide, parse_is_lossless [94, 40, 97, 43, 41, 42, 43, 36] (by decide)⟩

/-- C17: the parser is total: for every `cs` the unparsed part of `StateEmpty`
(and of `State`) over `cs` is a final segment of `cs`, so the state
`State<Group, remainder...>` that the `'('` rule continues with runs on an
input strictly shorter than the one that began with `'('`. -/
theorem unparsed_part_is_final_segment (cs : List Nat) :
    (∃ front, cs = front ++ (StateEmpty cs).unparsed_part) ∧
    (∀ p : Node, ∃ front, cs = front ++ (State p cs).unparsed_part) ∧
    StateEmpty (40 :: cs) =
      State (forward_to_regex (StateEmpty cs).tuple_type) (StateEmpty cs).unparsed_part ∧
    (StateEmpty cs).unparsed_part.length < (40 :: cs).length := by
  refine ⟨(unparsed_is_final_segment cs).1, (unparsed_is_final_segment cs).2, ?_, ?_⟩
  · simp [StateEmpty_cons]
  · have := StateEmpty_unparsed_length cs
    simp only [List.length_cons]
    omega

end ParsingInternal
end sre
